import Mathlib

/-!
Verification development for the content-quality scoring subsystem of this
repository (`backend/app/utils/text_utils.py`).

Modelling conventions:
* A Python `str` is a sequence of Unicode code points, modelled as `List Char`
  (string literals enter via `String.data`).
* Python `dict` results that are either empty (`{}`) or fully populated are
  modelled as `Option` of a structure (`none` = the empty report).
* Python floats are modelled as exact rationals (`ℚ`); `round(x, n)` is
  modelled as exact round-half-to-even at `n` decimal digits.
* The regex classes `\w` (word character) and `\s` (whitespace) are modelled
  on the character ranges exercised by this code base: ASCII alphanumerics
  plus underscore for `\w`, and the standard Unicode whitespace code points
  for `\s`.  The typographic punctuation the normalizer manipulates
  (curly quotes U+2018/U+2019/U+201C/U+201D, dashes U+2013/U+2014) is neither
  a word character nor whitespace, in Python as in this model.
-/

namespace TextUtils

/-- The ASCII apostrophe code point. -/
def apos : Char := Char.ofNat 39

/-- The ASCII double-quote code point. -/
def dquote : Char := Char.ofNat 34

/-- U+2013 EN DASH. -/
def enDash : Char := Char.ofNat 0x2013

/-- U+2014 EM DASH. -/
def emDash : Char := Char.ofNat 0x2014

/-- Python regex `\s` / `str.strip` whitespace: ASCII whitespace plus the
Unicode whitespace code points. -/
def pyIsSpace (c : Char) : Bool :=
  c = ' ' || c = '\t' || c = '\n' || c = '\r' ||
  c = Char.ofNat 11 || c = Char.ofNat 12 ||
  (Char.ofNat 0x1c ≤ c && c ≤ Char.ofNat 0x1f) ||
  c = Char.ofNat 0x85 || c = Char.ofNat 0xa0 || c = Char.ofNat 0x1680 ||
  (Char.ofNat 0x2000 ≤ c && c ≤ Char.ofNat 0x200a) ||
  c = Char.ofNat 0x2028 || c = Char.ofNat 0x2029 ||
  c = Char.ofNat 0x202f || c = Char.ofNat 0x205f || c = Char.ofNat 0x3000

/-- Python regex `\w`: alphanumerics and underscore (ASCII model, see the
file header). -/
def pyIsWord (c : Char) : Bool :=
  c.isAlphanum || c = '_'

/-- `str.strip()`: drop whitespace from both ends. -/
def pyStrip (s : List Char) : List Char :=
  ((s.dropWhile pyIsSpace).reverse.dropWhile pyIsSpace).reverse

/-- Worker for `re.sub(r'\s+', ' ', ·)`: the flag records whether the
previous character was whitespace (so the current run is already emitted). -/
def collapseAux : Bool → List Char → List Char
  | _, [] => []
  | prevSp, c :: rest =>
    if pyIsSpace c then
      if prevSp then collapseAux true rest
      else ' ' :: collapseAux true rest
    else c :: collapseAux false rest

/-- `re.sub(r'\s+', ' ', s)`: each maximal whitespace run becomes one space. -/
def collapseWS (s : List Char) : List Char := collapseAux false s

/-- The character class kept by `re.sub(r'[^\w\s.,!?;:()\'"-]', '', text)`:
word characters, whitespace, and the listed punctuation. -/
def allowedChar (c : Char) : Bool :=
  pyIsWord c || pyIsSpace c ||
  ['.', ',', '!', '?', ';', ':', '(', ')', apos, dquote, '-'].contains c

/-- Fuel-indexed worker for `str.replace` (the fuel bounds the input length;
structural recursion keeps the function kernel-computable).  With enough fuel:
scan left to right, replace each non-overlapping occurrence of `old`, never
rescanning emitted text. -/
def pyReplaceF (old new : List Char) : Nat → List Char → List Char
  | _, [] => []
  | 0, s => s
  | n + 1, c :: rest =>
    if old ≠ [] ∧ old.isPrefixOf (c :: rest) then
      new ++ pyReplaceF old new n ((c :: rest).drop old.length)
    else
      c :: pyReplaceF old new n rest

/-- Python `str.replace(old, new)`: scan left to right, replace each
non-overlapping occurrence of `old`, never rescanning emitted text.
(All call sites in the source use a non-empty `old`.) -/
def pyReplace (old new : List Char) (s : List Char) : List Char :=
  pyReplaceF old new s.length s

/-- The literal first argument of the `replace` call on line 33 of
`text_utils.py`.  In the source that line reads
`text = text.replace(''', "'").replace(''', "'")`; Python's tokenizer parses
the `'''` as opening a triple-quoted string, so the statement is a single
`replace` whose pattern is the 15-character literal
comma, space, `"`, `'`, `"`, `)`, `.`, `r`, `e`, `p`, `l`, `a`, `c`, `e`, `(`. -/
def patLine33 : List Char :=
  [',', ' ', dquote, apos, dquote, ')', '.', 'r', 'e', 'p', 'l', 'a', 'c', 'e', '(']

/-- `clean_text` from `text_utils.py` on code-point lists:
1. empty input short-circuits to the empty string;
2. `re.sub(r'\s+', ' ', text.strip())`;
3. `re.sub(r'[^\w\s.,!?;:()\'"-]', '', text)`;
4. `text.replace('"', '"').replace('"', '"')` — both arguments of each call
   are the ASCII double quote, so these calls replace `"` by `"`;
5. the line-33 `replace` (see `patLine33`) with replacement `'`;
6. `text.replace('–', '-').replace('—', '-')` for the en and em dash. -/
def clean_text (s : List Char) : List Char :=
  if s = [] then []
  else
    let t1 := collapseWS (pyStrip s)
    let t2 := t1.filter allowedChar
    let t3 := pyReplace [dquote] [dquote] (pyReplace [dquote] [dquote] t2)
    let t4 := pyReplace patLine33 [apos] t3
    pyReplace [emDash] ['-'] (pyReplace [enDash] ['-'] t4)

/-- Fuel-indexed worker for word tokenization (fuel bounds input length). -/
def wordTokensF : Nat → List Char → List (List Char)
  | _, [] => []
  | 0, _ => []
  | n + 1, c :: rest =>
    if pyIsWord c then
      (c :: rest.takeWhile pyIsWord) :: wordTokensF n (rest.dropWhile pyIsWord)
    else wordTokensF n rest

/-- `re.findall(r'\b\w+\b', s)`: the maximal runs of word characters. -/
def wordTokens (s : List Char) : List (List Char) :=
  wordTokensF s.length s

/-- `str.lower()` (ASCII model: `A`–`Z` map to `a`–`z`). -/
def pyLower (s : List Char) : List Char := s.map Char.toLower

/-- A sentence terminator, the class `[.!?]`. -/
def isSentTerm (c : Char) : Bool := c = '.' || c = '!' || c = '?'

/-- Fuel-indexed worker for the sentence split (fuel bounds input length). -/
def splitSentencesF : Nat → List Char → List (List Char)
  | _, [] => [[]]
  | 0, s => [s]
  | n + 1, c :: rest =>
    if isSentTerm c then [] :: splitSentencesF n (rest.dropWhile isSentTerm)
    else
      match splitSentencesF n rest with
      | [] => [[c]]
      | p :: ps => (c :: p) :: ps

/-- `re.split(r'[.!?]+', s)`: the pieces between maximal terminator runs,
including empty pieces at the boundaries (as Python's `re.split` yields). -/
def splitSentences (s : List Char) : List (List Char) :=
  splitSentencesF s.length s

/-- The vowel list of `count_syllables` (`"aeiouy"`). -/
def vowels : List Char := ['a', 'e', 'i', 'o', 'u', 'y']

/-- The character loop of `count_syllables`: count characters that are vowels
while the previous character was not (`on_vowel` is the carried flag). -/
def syllAux : Bool → List Char → Nat
  | _, [] => 0
  | onVowel, c :: rest =>
    (if vowels.contains c && !onVowel then 1 else 0) + syllAux (vowels.contains c) rest

/-- `count_syllables` from `text_utils.py`: lowercase, count non-vowel→vowel
transitions, subtract one if the (whole) text ends in `'e'`, floor at 1.
(The subtraction cannot underflow: a text ending in the vowel `'e'` has at
least one transition.) -/
def count_syllables (s : List Char) : Nat :=
  let t := pyLower s
  let n := syllAux false t
  max 1 (if t.getLast? = some 'e' then n - 1 else n)

/-- `count_complex_words`: words whose syllable count is at least 3. -/
def count_complex_words (s : List Char) : Nat :=
  ((wordTokens (pyLower s)).filter (fun w => decide (3 ≤ count_syllables w))).length

/-- Round half to even to an integer (Python's `round` tie-breaking). -/
def roundHalfEven (q : ℚ) : ℤ :=
  let f := ⌊q⌋
  let r := q - f
  if r < 1 / 2 then f
  else if 1 / 2 < r then f + 1
  else if Even f then f else f + 1

/-- Python `round(q, n)` on exact rationals. -/
def pyRoundTo (n : ℕ) (q : ℚ) : ℚ :=
  ((roundHalfEven (q * 10 ^ n) : ℚ)) / 10 ^ n

/-- The result record of `calculate_readability_score` (Python returns a
`dict` with these six keys when a report is produced). -/
structure ReadabilityScores where
  flesch_reading_ease : ℚ
  flesch_kincaid_grade : ℚ
  gunning_fog_index : ℚ
  avg_sentence_length : ℚ
  avg_syllables_per_word : ℚ
  complex_words_percentage : ℚ
deriving DecidableEq

/-- The sentence list computed inside `calculate_readability_score` (lines
95–96): raw regex split, then keep pieces that are non-empty after `strip`. -/
def readabilitySentences (t : List Char) : List (List Char) :=
  (splitSentences t).filter (fun p => !(pyStrip p).isEmpty)

/-- `calculate_readability_score` from `text_utils.py`.  `none` models the
empty dict `{}` returned for empty input or when there are no words or no
sentences. -/
def calculate_readability_score (s : List Char) : Option ReadabilityScores :=
  if s = [] then none
  else
    let t := clean_text s
    let sentences := readabilitySentences t
    let words := wordTokens (pyLower t)
    let syllables := count_syllables t
    let numSentences := sentences.length
    let numWords := words.length
    if numSentences = 0 ∨ numWords = 0 then none
    else
      let asl : ℚ := (numWords : ℚ) / (numSentences : ℚ)
      let aspw : ℚ := (syllables : ℚ) / (numWords : ℚ)
      let flesch : ℚ := 206835 / 1000 - 1015 / 1000 * asl - 846 / 10 * aspw
      let fleschClamped : ℚ := max 0 (min 100 flesch)
      let fk : ℚ := 39 / 100 * asl + 118 / 10 * aspw - 1559 / 100
      let fkFloored : ℚ := max 0 fk
      let complexWords := count_complex_words t
      let fog : ℚ := 4 / 10 * ((numWords : ℚ) / (numSentences : ℚ)
        + 100 * ((complexWords : ℚ) / (numWords : ℚ)))
      some {
        flesch_reading_ease := pyRoundTo 2 fleschClamped
        flesch_kincaid_grade := pyRoundTo 1 fkFloored
        gunning_fog_index := pyRoundTo 1 fog
        avg_sentence_length := pyRoundTo 1 asl
        avg_syllables_per_word := pyRoundTo 2 aspw
        complex_words_percentage := pyRoundTo 1 ((complexWords : ℚ) / (numWords : ℚ) * 100) }

/-- The stop-word set of `extract_keywords` (the Python source lists some
words twice; a set collapses them, and for membership the duplicates are
irrelevant). -/
def stop_words : List (List Char) :=
  (["the", "a", "an", "and", "or", "but", "in", "on", "at", "to", "for",
    "of", "with", "by", "is", "are", "was", "were", "be", "been", "being",
    "have", "has", "had", "do", "does", "did", "will", "would", "could",
    "should", "may", "might", "must", "can", "this", "that", "these", "those",
    "i", "you", "he", "she", "it", "we", "they", "me", "him", "her", "us", "them",
    "my", "your", "his", "its", "our", "their", "mine", "yours", "hers",
    "ours", "theirs", "am"].map String.data)

/-- Keys of a Python `Counter` in insertion order: first occurrences, in
order of appearance. -/
def insertionOrder (l : List (List Char)) : List (List Char) :=
  l.foldl (fun acc w => if w ∈ acc then acc else acc ++ [w]) []

/-- Insert into a count-descending list, after all entries with a count that
is at least as large (so equal counts keep their original relative order). -/
def insertDescBy (cnt : List Char → Nat) (x : List Char) : List (List Char) → List (List Char)
  | [] => [x]
  | y :: ys => if cnt x ≤ cnt y then y :: insertDescBy cnt x ys else x :: y :: ys

/-- Stable sort by descending count — the order `Counter.most_common`
guarantees (count descending, ties in insertion order). -/
def mostCommonOrder (cnt : List Char → Nat) (l : List (List Char)) : List (List Char) :=
  l.foldl (fun acc x => insertDescBy cnt x acc) []

/-- The filtered token list of `extract_keywords` (line 69 of the source):
tokens of the cleaned lowercased text that are not stop words and have
length greater than 2. -/
def keywordCandidates (s : List Char) : List (List Char) :=
  (wordTokens (clean_text (pyLower s))).filter
    (fun w => decide (w ∉ stop_words) && decide (2 < w.length))

/-- `extract_keywords` from `text_utils.py`: lowercase, clean, tokenize, drop
stop words and tokens of length ≤ 2, return the `maxKeywords` most frequent
remaining tokens (count descending, ties by first occurrence). -/
def extract_keywords (s : List Char) (maxKeywords : Nat) : List (List Char) :=
  if s = [] then []
  else
    let ws := keywordCandidates s
    let sorted := mostCommonOrder (fun w => ws.count w) (insertionOrder ws)
    sorted.take maxKeywords

/-- The positive lexicon of `extract_sentiment_words`. -/
def positive_words : List (List Char) :=
  (["good", "great", "excellent", "amazing", "wonderful", "fantastic",
    "awesome", "brilliant", "outstanding", "perfect", "best", "love",
    "like", "enjoy", "happy", "pleased", "satisfied", "impressed"].map String.data)

/-- The negative lexicon of `extract_sentiment_words` (the Python source
lists some words twice; as a set the duplicates are irrelevant). -/
def negative_words : List (List Char) :=
  (["bad", "terrible", "awful", "horrible", "worst", "disappointing",
    "poor", "unhappy", "angry", "frustrated", "annoyed", "upset",
    "hate", "dislike"].map String.data)

/-- Result of `extract_sentiment_words`.  Python builds each list as
`list(set(found))`, whose element order is unspecified (set iteration
order); the model lists each distinct element once, in first-occurrence
order.  Claims proved about these lists are order-insensitive
(membership, multiplicity, length). -/
structure SentimentWords where
  positive : List (List Char)
  negative : List (List Char)
deriving DecidableEq

/-- `extract_sentiment_words` from `text_utils.py`. -/
def extract_sentiment_words (s : List Char) : SentimentWords :=
  let ws := wordTokens (pyLower s)
  { positive := insertionOrder (ws.filter (fun w => decide (w ∈ positive_words)))
    negative := insertionOrder (ws.filter (fun w => decide (w ∈ negative_words))) }

/-- The result record of `calculate_text_statistics` (the populated dict). -/
structure TextStatistics where
  characters : Nat
  characters_no_spaces : Nat
  words : Nat
  sentences : Nat
  paragraphs : Nat
  unique_words : Nat
  avg_word_length : ℚ
  readability : Option ReadabilityScores
  sentiment : SentimentWords
  estimated_reading_time : ℚ
deriving DecidableEq

/-- Fuel-indexed worker for `str.split` on a literal separator. -/
def pySplitSepF (sep : List Char) : Nat → List Char → List (List Char)
  | _, [] => [[]]
  | 0, s => [s]
  | n + 1, c :: rest =>
    if sep ≠ [] ∧ sep.isPrefixOf (c :: rest) then
      [] :: pySplitSepF sep n ((c :: rest).drop sep.length)
    else
      match pySplitSepF sep n rest with
      | [] => [[c]]
      | p :: ps => (c :: p) :: ps

/-- Python `str.split(sep)` for a non-empty literal separator: pieces between
non-overlapping occurrences, empty pieces kept. -/
def pySplitSep (sep : List Char) (s : List Char) : List (List Char) :=
  pySplitSepF sep s.length s

/-- `calculate_text_statistics` from `text_utils.py`.  `none` models the
empty dict returned for empty input.  Note the code hands the already
cleaned text to `calculate_readability_score`, which cleans it again. -/
def calculate_text_statistics (s : List Char) : Option TextStatistics :=
  if s = [] then none
  else
    let t := clean_text s
    let words := (wordTokens t).length
    some {
      characters := t.length
      characters_no_spaces := (pyReplace [' '] [] t).length
      words := words
      sentences := (splitSentences t).length
      paragraphs := ((pySplitSep ['\n', '\n'] t).filter (fun p => !(pyStrip p).isEmpty)).length
      unique_words := (insertionOrder (wordTokens (pyLower t))).length
      avg_word_length := pyRoundTo 2
        (if 0 < words then (((wordTokens t).map List.length).sum : ℚ) / (words : ℚ) else 0)
      readability := calculate_readability_score t
      sentiment := extract_sentiment_words t
      estimated_reading_time := pyRoundTo 1 ((words : ℚ) / 200) }

/-- Does `pat` occur as a contiguous substring of the argument? -/
def containsSeq (pat : List Char) : List Char → Bool
  | [] => pat.isEmpty
  | c :: rest => pat.isPrefixOf (c :: rest) || containsSeq pat rest

/-- No two adjacent ASCII spaces. -/
def noAdjSpaces : List Char → Bool
  | [] => true
  | [_] => true
  | a :: b :: rest => !(a = ' ' && b = ' ') && noAdjSpaces (b :: rest)

/-- Canonical form for `clean_text`: every character is kept by the character
filter, the only whitespace character is the ASCII space, no two spaces are
adjacent, the string neither starts nor ends with a space, and the line-33
pattern (`patLine33`) does not occur. -/
def cleanCanon (s : List Char) : Bool :=
  s.all allowedChar &&
  s.all (fun c => !pyIsSpace c || c = ' ') &&
  noAdjSpaces s &&
  s.head? != some ' ' && s.getLast? != some ' ' &&
  !containsSeq patLine33 s

/-- The word count `calculate_readability_score` divides by (line 98 of the
source: tokens of the lowercased cleaned text). -/
def readability_word_count (s : List Char) : Nat :=
  (wordTokens (pyLower (clean_text s))).length

/-- The sentence count `calculate_readability_score` divides by (lines 95–96
of the source: split pieces that are non-empty after `strip`). -/
def readability_sentence_count (s : List Char) : Nat :=
  (readabilitySentences (clean_text s)).length

/-- The `on_vowel` flag after the `count_syllables` loop has processed `l`
starting from flag `b`. -/
def endFlag (b : Bool) (l : List Char) : Bool :=
  l.foldl (fun _ c => vowels.contains c) b

/-! ### General lemmas about the string primitives -/

/-! #### Fuel irrelevance and unfolding equations

The fuel-indexed workers agree for any fuel at least the input length, which
yields the natural recursion equations for the wrapper functions. -/

/-- `pyReplaceF` does not depend on the fuel once it covers the input. -/
theorem pyReplaceF_congr (old new : List Char) :
    ∀ n, ∀ m, ∀ s : List Char, s.length ≤ n → s.length ≤ m →
      pyReplaceF old new n s = pyReplaceF old new m s := by
  intro n
  induction n with
  | zero =>
    intro m s hn _
    rw [List.length_eq_zero.mp (Nat.le_zero.mp hn)]
    cases m <;> rfl
  | succ n ih =>
    intro m s hn hm
    match s with
    | [] => cases m <;> rfl
    | c :: rest =>
      match m with
      | 0 => simp at hm
      | m + 1 =>
        simp only [List.length_cons] at hn hm
        rw [pyReplaceF, pyReplaceF]
        split
        · rename_i h
          have hlen : 0 < old.length := List.length_pos.mpr h.1
          congr 1
          refine ih m _ ?_ ?_ <;> simp only [List.length_drop, List.length_cons] <;> omega
        · congr 1
          exact ih m rest (by omega) (by omega)

/-- Recursion equation of `pyReplace` on `[]`. -/
theorem pyReplace_nil (old new : List Char) : pyReplace old new [] = [] := rfl

/-- Recursion equation of `pyReplace` on `c :: rest`. -/
theorem pyReplace_cons (old new : List Char) (c : Char) (rest : List Char) :
    pyReplace old new (c :: rest) =
      if old ≠ [] ∧ old.isPrefixOf (c :: rest) then
        new ++ pyReplace old new ((c :: rest).drop old.length)
      else
        c :: pyReplace old new rest := by
  show pyReplaceF old new (rest.length + 1) (c :: rest) = _
  rw [pyReplaceF]
  split
  · rename_i h
    have hlen : 0 < old.length := List.length_pos.mpr h.1
    congr 1
    refine pyReplaceF_congr old new rest.length _ _ ?_ (Nat.le_refl _)
    simp only [List.length_drop, List.length_cons]
    omega
  · rfl

/-- `wordTokensF` does not depend on the fuel once it covers the input. -/
theorem wordTokensF_congr :
    ∀ n, ∀ m, ∀ s : List Char, s.length ≤ n → s.length ≤ m →
      wordTokensF n s = wordTokensF m s := by
  intro n
  induction n with
  | zero =>
    intro m s hn _
    rw [List.length_eq_zero.mp (Nat.le_zero.mp hn)]
    cases m <;> rfl
  | succ n ih =>
    intro m s hn hm
    match s with
    | [] => cases m <;> rfl
    | c :: rest =>
      match m with
      | 0 => simp at hm
      | m + 1 =>
        simp only [List.length_cons] at hn hm
        rw [wordTokensF, wordTokensF]
        have hsub : (rest.dropWhile pyIsWord).Sublist rest := List.dropWhile_sublist _
        have hdrop := List.Sublist.length_le hsub
        split
        · congr 1
          exact ih m _ (by omega) (by omega)
        · exact ih m rest (by omega) (by omega)

/-- Recursion equation of `wordTokens` on `[]`. -/
theorem wordTokens_nil : wordTokens [] = [] := rfl

/-- Recursion equation of `wordTokens` on `c :: rest`. -/
theorem wordTokens_cons (c : Char) (rest : List Char) :
    wordTokens (c :: rest) =
      if pyIsWord c then
        (c :: rest.takeWhile pyIsWord) :: wordTokens (rest.dropWhile pyIsWord)
      else wordTokens rest := by
  show wordTokensF (rest.length + 1) (c :: rest) = _
  rw [wordTokensF]
  have hsub : (rest.dropWhile pyIsWord).Sublist rest := List.dropWhile_sublist _
  have hdrop := List.Sublist.length_le hsub
  split
  · congr 1
    exact wordTokensF_congr rest.length _ _ (by omega) (Nat.le_refl _)
  · exact wordTokensF_congr rest.length _ rest (Nat.le_refl _) (Nat.le_refl _)

/-- `splitSentencesF` does not depend on the fuel once it covers the input. -/
theorem splitSentencesF_congr :
    ∀ n, ∀ m, ∀ s : List Char, s.length ≤ n → s.length ≤ m →
      splitSentencesF n s = splitSentencesF m s := by
  intro n
  induction n with
  | zero =>
    intro m s hn _
    rw [List.length_eq_zero.mp (Nat.le_zero.mp hn)]
    cases m <;> rfl
  | succ n ih =>
    intro m s hn hm
    match s with
    | [] => cases m <;> rfl
    | c :: rest =>
      match m with
      | 0 => simp at hm
      | m + 1 =>
        simp only [List.length_cons] at hn hm
        rw [splitSentencesF, splitSentencesF]
        have hsub : (rest.dropWhile isSentTerm).Sublist rest := List.dropWhile_sublist _
        have hdrop := List.Sublist.length_le hsub
        split
        · congr 1
          exact ih m _ (by omega) (by omega)
        · rw [ih m rest (by omega) (by omega)]

/-- Recursion equation of `splitSentences` on `[]`. -/
theorem splitSentences_nil : splitSentences [] = [[]] := rfl

/-- Recursion equation of `splitSentences` on `c :: rest`. -/
theorem splitSentences_cons (c : Char) (rest : List Char) :
    splitSentences (c :: rest) =
      if isSentTerm c then [] :: splitSentences (rest.dropWhile isSentTerm)
      else
        match splitSentences rest with
        | [] => [[c]]
        | p :: ps => (c :: p) :: ps := by
  show splitSentencesF (rest.length + 1) (c :: rest) = _
  rw [splitSentencesF]
  have hsub : (rest.dropWhile isSentTerm).Sublist rest := List.dropWhile_sublist _
  have hdrop := List.Sublist.length_le hsub
  split
  · congr 1
    exact splitSentencesF_congr rest.length _ _ (by omega) (Nat.le_refl _)
  · rfl

/-- `pySplitSepF` does not depend on the fuel once it covers the input. -/
theorem pySplitSepF_congr (sep : List Char) :
    ∀ n, ∀ m, ∀ s : List Char, s.length ≤ n → s.length ≤ m →
      pySplitSepF sep n s = pySplitSepF sep m s := by
  intro n
  induction n with
  | zero =>
    intro m s hn _
    rw [List.length_eq_zero.mp (Nat.le_zero.mp hn)]
    cases m <;> rfl
  | succ n ih =>
    intro m s hn hm
    match s with
    | [] => cases m <;> rfl
    | c :: rest =>
      match m with
      | 0 => simp at hm
      | m + 1 =>
        simp only [List.length_cons] at hn hm
        rw [pySplitSepF, pySplitSepF]
        split
        · rename_i h
          have hlen : 0 < sep.length := List.length_pos.mpr h.1
          congr 1
          refine ih m _ ?_ ?_ <;> simp only [List.length_drop, List.length_cons] <;> omega
        · rw [ih m rest (by omega) (by omega)]

/-- Recursion equation of `pySplitSep` on `[]`. -/
theorem pySplitSep_nil (sep : List Char) : pySplitSep sep [] = [[]] := rfl

/-- Recursion equation of `pySplitSep` on `c :: rest`. -/
theorem pySplitSep_cons (sep : List Char) (c : Char) (rest : List Char) :
    pySplitSep sep (c :: rest) =
      if sep ≠ [] ∧ sep.isPrefixOf (c :: rest) then
        [] :: pySplitSep sep ((c :: rest).drop sep.length)
      else
        match pySplitSep sep rest with
        | [] => [[c]]
        | p :: ps => (c :: p) :: ps := by
  show pySplitSepF sep (rest.length + 1) (c :: rest) = _
  rw [pySplitSepF]
  split
  · rename_i h
    have hlen : 0 < sep.length := List.length_pos.mpr h.1
    congr 1
    refine pySplitSepF_congr sep rest.length _ _ ?_ (Nat.le_refl _)
    simp only [List.length_drop, List.length_cons]
    omega
  · rfl

/-- Replacing a single character by itself changes nothing. -/
theorem pyReplace_single_self (d : Char) : ∀ l, pyReplace [d] [d] l = l
  | [] => pyReplace_nil [d] [d]
  | c :: rest => by
    rw [pyReplace_cons]
    split
    · rename_i h
      have hc : d == c := by
        have h2 := h.2
        simp only [List.isPrefixOf, Bool.and_eq_true] at h2
        exact h2.1
      simp only [List.length_cons, List.length_nil, List.drop_succ_cons, List.drop_zero]
      rw [pyReplace_single_self d rest]
      simp [beq_iff_eq.mp hc]
    · rw [pyReplace_single_self d rest]

/-- If the pattern does not occur, `replace` changes nothing. -/
theorem pyReplace_eq_self_of_not_occur (old new : List Char) :
    ∀ l, containsSeq old l = false → pyReplace old new l = l
  | [], _ => pyReplace_nil old new
  | c :: rest, h => by
    rw [containsSeq, Bool.or_eq_false_iff] at h
    rw [pyReplace_cons]
    split
    · rename_i hp
      exact absurd hp.2 (by simp [h.1])
    · rw [pyReplace_eq_self_of_not_occur old new rest h.2]

/-- A single-character pattern occurs iff the character is a member. -/
theorem containsSeq_single (d : Char) :
    ∀ l, containsSeq [d] l = l.contains d
  | [] => rfl
  | c :: rest => by
    rw [containsSeq, containsSeq_single d rest]
    by_cases hdc : d = c <;> simp [hdc, List.isPrefixOf, List.contains_cons]

/-- Fuel-indexed form of `mem_pyReplace` (induction on a length bound). -/
theorem mem_pyReplace_fuel (old new : List Char) (a : Char) :
    ∀ n, ∀ l : List Char, l.length ≤ n → a ∈ pyReplace old new l → a ∈ new ∨ a ∈ l := by
  intro n
  induction n with
  | zero =>
    intro l hl h
    rw [List.length_eq_zero.mp (Nat.le_zero.mp hl), pyReplace_nil] at h
    exact absurd h (List.not_mem_nil a)
  | succ n ih =>
    intro l hl h
    match l with
    | [] => rw [pyReplace_nil] at h; exact absurd h (List.not_mem_nil a)
    | c :: rest =>
      rw [pyReplace_cons] at h
      split at h
      · rename_i hp
        rcases List.mem_append.mp h with h | h
        · exact Or.inl h
        · have hfuel : (List.drop old.length (c :: rest)).length ≤ n := by
            have hlen : 0 < old.length := List.length_pos.mpr hp.1
            simp only [List.length_drop, List.length_cons]
            simp only [List.length_cons] at hl
            omega
          rcases ih _ hfuel h with h | h
          · exact Or.inl h
          · exact Or.inr (List.drop_subset _ _ h)
      · rcases List.mem_cons.mp h with h | h
        · exact Or.inr (h ▸ List.mem_cons_self c rest)
        · have hfuel : rest.length ≤ n := by
            simp only [List.length_cons] at hl; omega
          rcases ih rest hfuel h with h | h
          · exact Or.inl h
          · exact Or.inr (List.mem_cons_of_mem c h)

/-- Every character of a `replace` result comes from the replacement string
or from the input. -/
theorem mem_pyReplace (old new : List Char) (a : Char) (l : List Char)
    (h : a ∈ pyReplace old new l) : a ∈ new ∨ a ∈ l :=
  mem_pyReplace_fuel old new a l.length l (Nat.le_refl _) h

/-- `dropWhile` is the identity when the head (if any) fails the predicate. -/
theorem dropWhile_eq_self_of_head (p : Char → Bool) (l : List Char)
    (h : ∀ a, l.head? = some a → p a = false) : l.dropWhile p = l := by
  match l with
  | [] => rfl
  | c :: rest =>
    rw [List.dropWhile_cons, h c rfl]
    simp

/-- `strip` is the identity on strings with no leading or trailing
whitespace. -/
theorem pyStrip_eq_self (l : List Char)
    (hh : ∀ a, l.head? = some a → pyIsSpace a = false)
    (hl : ∀ a, l.getLast? = some a → pyIsSpace a = false) : pyStrip l = l := by
  unfold pyStrip
  rw [dropWhile_eq_self_of_head pyIsSpace l hh]
  rw [dropWhile_eq_self_of_head pyIsSpace l.reverse
    (fun a ha => hl a (by rwa [List.head?_reverse] at ha))]
  exact List.reverse_reverse l

/-- `noAdjSpaces` restricted to the tail. -/
theorem noAdjSpaces_tail (c : Char) (l : List Char)
    (h : noAdjSpaces (c :: l) = true) : noAdjSpaces l = true := by
  match l with
  | [] => rfl
  | d :: rest =>
    rw [noAdjSpaces, Bool.and_eq_true] at h
    exact h.2

/-- The whitespace-collapsing pass is the identity on a string whose only
whitespace is the single ASCII space, with no two adjacent and none exposed
to the incoming flag. -/
theorem collapseAux_eq_self (b : Bool) (l : List Char)
    (hw : ∀ c ∈ l, pyIsSpace c = true → c = ' ')
    (ha : noAdjSpaces l = true)
    (hb : b = true → l.head? ≠ some ' ') : collapseAux b l = l := by
  induction l generalizing b with
  | nil => rfl
  | cons c rest ih =>
    rw [collapseAux]
    by_cases hsp : pyIsSpace c = true
    · have hc : c = ' ' := hw c (List.mem_cons_self c rest) hsp
      have hbf : b = false := by
        cases b with
        | false => rfl
        | true => exact absurd (by rw [hc]; rfl) (hb rfl)
      rw [hsp, hbf]
      simp only [if_true, if_false, Bool.false_eq_true]
      rw [hc]
      congr 1
      refine ih true (fun d hd hds => hw d (List.mem_cons_of_mem c hd) hds)
        (noAdjSpaces_tail c rest ha) ?_
      intro _ hhead
      match rest with
      | [] => simp at hhead
      | d :: rest' =>
        rw [List.head?_cons] at hhead
        have hd : d = ' ' := Option.some.inj hhead
        rw [hc, hd] at ha
        rw [noAdjSpaces] at ha
        simp at ha
    · rw [if_neg (by simpa using hsp)]
      congr 1
      exact ih false (fun d hd hds => hw d (List.mem_cons_of_mem c hd) hds)
        (noAdjSpaces_tail c rest ha) (fun h => absurd h (by simp))

/-- On canonical strings (see `cleanCanon`) `clean_text` is the identity. -/
theorem clean_text_eq_self_of_canon (s : List Char) (h : cleanCanon s = true) :
    clean_text s = s := by
  unfold cleanCanon at h
  simp only [Bool.and_eq_true, bne_iff_ne, Bool.not_eq_true', List.all_eq_true] at h
  obtain ⟨⟨⟨⟨⟨hallow, hascii⟩, hadj⟩, hhead⟩, hlast⟩, hpat⟩ := h
  unfold clean_text
  by_cases hnil : s = []
  · rw [if_pos hnil]
    exact hnil.symm
  rw [if_neg hnil]
  have hasciiF : ∀ c ∈ s, pyIsSpace c = true → c = ' ' := by
    intro c hc hcs
    have := hascii c hc
    rw [hcs] at this
    simpa using this
  have hstrip : pyStrip s = s := by
    refine pyStrip_eq_self s ?_ ?_
    · intro a ha
      by_contra hcontra
      rw [Bool.not_eq_false] at hcontra
      have : a = ' ' := hasciiF a (by
        cases s with
        | nil => simp at ha
        | cons x xs => rw [List.head?_cons] at ha; exact (Option.some.inj ha) ▸ List.mem_cons_self x xs) hcontra
      rw [this] at ha
      exact hhead ha
    · intro a ha
      by_contra hcontra
      rw [Bool.not_eq_false] at hcontra
      have ham : a ∈ s := by
        have hrev : a ∈ s.reverse := by
          rw [← List.head?_reverse] at ha
          exact List.mem_of_mem_head? ha
        exact List.mem_reverse.mp hrev
      have : a = ' ' := hasciiF a ham hcontra
      rw [this] at ha
      exact hlast ha
  have hcollapse : collapseWS s = s :=
    collapseAux_eq_self false s hasciiF hadj (fun h => absurd h (by simp))
  have hfilter : s.filter allowedChar = s := List.filter_eq_self.mpr hallow
  rw [hstrip]
  show pyReplace [emDash] ['-'] (pyReplace [enDash] ['-'] (pyReplace patLine33 [apos]
    (pyReplace [dquote] [dquote] (pyReplace [dquote] [dquote]
      (List.filter allowedChar (collapseWS s)))))) = s
  unfold collapseWS at hcollapse
  rw [show collapseWS s = s from hcollapse, hfilter]
  rw [pyReplace_single_self, pyReplace_single_self]
  rw [pyReplace_eq_self_of_not_occur patLine33 [apos] s (by simpa using hpat)]
  have hdash : ∀ d : Char, allowedChar d = false →
      pyReplace [d] ['-'] s = s := by
    intro d hd
    refine pyReplace_eq_self_of_not_occur [d] ['-'] s ?_
    rw [containsSeq_single]
    by_contra hc
    rw [Bool.not_eq_false] at hc
    have hdm : d ∈ s := List.elem_iff.mp hc
    rw [hallow d hdm] at hd
    exact Bool.true_eq_false.mp hd
  rw [hdash enDash (by decide), hdash emDash (by decide)]

/-! ### Claim C5 — idempotence of the normalizer -/

/-- C5 counterexample: the normalizer is not idempotent for all strings.  On
`"a – b"` the character filter deletes the en dash between two spaces,
leaving the double space `"a  b"`; a second pass collapses that to `"a b"`,
so `clean_text (clean_text x) ≠ clean_text x` at `x = "a – b"`. -/
theorem claim5_counterexample :
    clean_text "a – b".data = "a  b".data ∧
    clean_text (clean_text "a – b".data) = "a b".data ∧
    clean_text (clean_text "a – b".data) ≠ clean_text "a – b".data :=
  ⟨by decide, by decide, by decide⟩

/-- C5 (amended): `clean_text` fixes every canonical string — all characters
kept by the filter, whitespace occurring only as single interior ASCII
spaces, no occurrence of the line-33 replacement pattern — and is therefore
idempotent on such inputs (not on all strings). -/
theorem claim5_clean_text_idempotent_on_canon (s : List Char)
    (h : cleanCanon s = true) :
    clean_text s = s ∧ clean_text (clean_text s) = clean_text s := by
  have hfix := clean_text_eq_self_of_canon s h
  exact ⟨hfix, by rw [hfix]; exact hfix⟩

/-- C5 witness: `"Hello, world!"` is canonical, is fixed by `clean_text`,
and `clean_text` is idempotent on it. -/
theorem claim5_witness :
    cleanCanon "Hello, world!".data = true ∧
    clean_text "Hello, world!".data = "Hello, world!".data ∧
    clean_text (clean_text "Hello, world!".data) = clean_text "Hello, world!".data :=
  ⟨by decide, (claim5_clean_text_idempotent_on_canon "Hello, world!".data (by decide)).1,
    (claim5_clean_text_idempotent_on_canon "Hello, world!".data (by decide)).2⟩

/-! ### Claim C1 — the empty-input contract of the scoring boundary -/

/-- C1 counterexample: `calculate_text_statistics("")` does not return a
populated report carrying `words = 0` and `sentences = 0`; it returns the
empty dict (modelled as `none`), which has no fields at all. -/
theorem claim1_counterexample :
    ¬ ∃ st : TextStatistics, calculate_text_statistics "".data = some st ∧
      st.words = 0 ∧ st.sentences = 0 ∧ st.readability = none := by
  rintro ⟨st, h, -⟩
  rw [show calculate_text_statistics "".data = none from rfl] at h
  exact Option.noConfusion h

/-- C1 (amended): on the empty string the public scoring boundary returns
the empty report `{}` — no `words`, `sentences` or `readability` fields —
modelled as `none`. -/
theorem claim1_empty_input : calculate_text_statistics "".data = none := rfl

/-! ### Claim C4 — typographic punctuation is deleted, not canonicalized -/

/-- C4: the normalizer does not canonicalize typographic quotes or dashes to
their ASCII equivalents.  The character filter (line 29 of the source)
deletes them before the replacement lines run — and the double-quote
replacement on line 32 is `replace('"', '"')`, a no-op — so they vanish
instead of appearing as `"` / `'` / `-`, although the comment on line 31
says "Normalize quotes and dashes". -/
theorem claim4_typographic_deleted :
    clean_text "a—b".data = "ab".data ∧
    clean_text "a–b".data = "ab".data ∧
    clean_text "“hi”".data = "hi".data ∧
    clean_text "it’s".data = "its".data :=
  ⟨by decide, by decide, by decide, by decide⟩

/-! ### Claim C2 — the aggregate syllable count -/

/-- Every vowel of `count_syllables` is a word character. -/
theorem vowel_is_word_char (c : Char) (h : vowels.contains c = true) :
    pyIsWord c = true := by
  have hm : c ∈ vowels := List.elem_iff.mp h
  fin_cases hm <;> decide

/-- `syllAux` splits over append, threading the `on_vowel` flag. -/
theorem syllAux_append (l₂ : List Char) : ∀ l₁ (b : Bool),
    syllAux b (l₁ ++ l₂) = syllAux b l₁ + syllAux (endFlag b l₁) l₂
  | [], b => by simp [syllAux, endFlag]
  | c :: l₁, b => by
    rw [List.cons_append, syllAux, syllAux, syllAux_append l₂ l₁ (vowels.contains c)]
    have hflag : endFlag b (c :: l₁) = endFlag (vowels.contains c) l₁ := by
      simp [endFlag]
    rw [hflag]
    omega

/-- The incoming flag is irrelevant when the list does not start with a
vowel. -/
theorem syllAux_flag_irrel (l : List Char) (b b' : Bool)
    (h : ∀ a, l.head? = some a → vowels.contains a = false) :
    syllAux b l = syllAux b' l := by
  match l with
  | [] => rfl
  | c :: rest =>
    rw [syllAux, syllAux, h c rfl]
    simp

/-- The head of a `dropWhile` result fails the predicate. -/
theorem head_dropWhile_false (p : Char → Bool) :
    ∀ l : List Char, ∀ a : Char, (l.dropWhile p).head? = some a → p a = false := by
  intro l
  induction l with
  | nil => intro a ha; simp at ha
  | cons c rest ih =>
    intro a ha
    rw [List.dropWhile_cons] at ha
    split at ha
    · exact ih a ha
    · rename_i hc
      rw [List.head?_cons] at ha
      rw [← Option.some.inj ha]
      exact Bool.not_eq_true _ ▸ (Bool.eq_false_iff.mpr hc)

/-- Fuel-indexed form of the token decomposition of the syllable scan. -/
theorem syllAux_tokens_fuel : ∀ n, ∀ t : List Char, t.length ≤ n →
    syllAux false t = ((wordTokens t).map (syllAux false)).sum := by
  intro n
  induction n with
  | zero =>
    intro t ht
    rw [List.length_eq_zero.mp (Nat.le_zero.mp ht)]
    rfl
  | succ n ih =>
    intro t ht
    match t with
    | [] => rfl
    | c :: rest =>
      simp only [List.length_cons] at ht
      rw [wordTokens_cons]
      by_cases hw : pyIsWord c = true
      · rw [if_pos hw]
        have hsplit : c :: rest = (c :: rest.takeWhile pyIsWord) ++ rest.dropWhile pyIsWord := by
          rw [List.cons_append, List.takeWhile_append_dropWhile]
        conv_lhs => rw [hsplit]
        rw [syllAux_append, List.map_cons, List.sum_cons]
        congr 1
        have hdropflag :
            syllAux (endFlag false (c :: rest.takeWhile pyIsWord)) (rest.dropWhile pyIsWord)
              = syllAux false (rest.dropWhile pyIsWord) := by
          refine syllAux_flag_irrel _ _ _ ?_
          intro a ha
          have hnw := head_dropWhile_false pyIsWord rest a ha
          by_contra hv
          rw [Bool.not_eq_false] at hv
          rw [vowel_is_word_char a hv] at hnw
          exact Bool.true_eq_false.mp hnw
        rw [hdropflag]
        refine ih _ ?_
        have hsub2 : (rest.dropWhile pyIsWord).Sublist rest := List.dropWhile_sublist _
        have := List.Sublist.length_le hsub2
        omega
      · rw [if_neg hw]
        have hcv : vowels.contains c = false := by
          by_contra hv
          rw [Bool.not_eq_false] at hv
          exact hw (vowel_is_word_char c hv)
        have hstep : syllAux false (c :: rest) = syllAux false rest := by
          rw [syllAux, hcv]
          simp
        rw [hstep]
        exact ih rest (by omega)

/-- The vowel-run count of a text is the sum of the vowel-run counts of its
word tokens (separators contain no vowels and reset the flag). -/
theorem syllAux_eq_sum_over_tokens (t : List Char) :
    syllAux false t = ((wordTokens t).map (syllAux false)).sum :=
  syllAux_tokens_fuel t.length t (Nat.le_refl _)

/-- C2 counterexample: on the normalized text `"one two"` the aggregate used
by the readability computation, `count_syllables` of the whole text, is 3,
while the sum over word tokens of the per-word syllable count is
1 + 1 = 2 (each word's count is adjusted and floored separately). -/
theorem claim2_counterexample :
    clean_text "one two".data = "one two".data ∧
    count_syllables (clean_text "one two".data) = 3 ∧
    ((wordTokens (pyLower (clean_text "one two".data))).map count_syllables).sum = 2 ∧
    count_syllables (clean_text "one two".data) ≠
      ((wordTokens (pyLower (clean_text "one two".data))).map count_syllables).sum :=
  ⟨by decide, by decide, by decide, by decide⟩

/-- C2 (amended): the aggregate syllable count used by the readability
computation is `count_syllables` applied to the whole text, which equals the
sum over all word tokens of the per-token vowel-run count, with the silent-e
subtraction (if the whole text ends in `'e'`) and the floor at 1 applied
once globally — not per word. -/
theorem claim2_aggregate_syllables (s : List Char) :
    count_syllables s =
      max 1 ((((wordTokens (pyLower s)).map (syllAux false)).sum) -
        (if (pyLower s).getLast? = some 'e' then 1 else 0)) := by
  have hdef : count_syllables s =
      max 1 (if (pyLower s).getLast? = some 'e' then syllAux false (pyLower s) - 1
        else syllAux false (pyLower s)) := rfl
  rw [hdef, syllAux_eq_sum_over_tokens]
  by_cases h : (pyLower s).getLast? = some 'e' <;> simp [h]

/-! ### Claim C3 — sentence segmentation and the statistics report -/

/-- The witness of `getLast?` is a member. -/
theorem mem_of_getLast?_eq (l : List Char) (a : Char) (h : l.getLast? = some a) :
    a ∈ l := by
  have hrev : a ∈ l.reverse := List.mem_of_mem_head? (by rwa [List.head?_reverse])
  exact List.mem_reverse.mp hrev

/-- A non-empty `dropWhile` result keeps the last element of the list. -/
theorem getLast?_dropWhile (p : Char → Bool) (l : List Char)
    (h : l.dropWhile p ≠ []) : (l.dropWhile p).getLast? = l.getLast? := by
  conv_rhs => rw [← List.takeWhile_append_dropWhile p l]
  exact (List.getLast?_append_of_ne_nil (l.takeWhile p) h).symm

/-- `splitSentences` never returns the empty list of pieces. -/
theorem splitSentences_ne_nil : ∀ s : List Char, splitSentences s ≠ [] := by
  intro s
  match s with
  | [] => rw [splitSentences_nil]; simp
  | c :: rest =>
    rw [splitSentences_cons]
    split
    · simp
    · split <;> simp

/-- Appending one sentence terminator merges into a final terminator run (no
new piece) or contributes exactly one trailing empty piece. -/
theorem splitSentences_append_term (d : Char) (hd : isSentTerm d = true) :
    ∀ n, ∀ t : List Char, t.length ≤ n →
      splitSentences (t ++ [d]) =
        if t.getLast?.elim false isSentTerm then splitSentences t
        else splitSentences t ++ [[]] := by
  intro n
  induction n with
  | zero =>
    intro t ht
    rw [List.length_eq_zero.mp (Nat.le_zero.mp ht)]
    simp only [List.nil_append, List.getLast?_nil, Option.elim_none, if_false]
    rw [splitSentences_cons, if_pos hd, splitSentences_nil]
    simp [splitSentences_nil]
  | succ n ih =>
    intro t ht
    match t with
    | [] =>
      simp only [List.nil_append, List.getLast?_nil, Option.elim_none, if_false]
      rw [splitSentences_cons, if_pos hd, splitSentences_nil]
      simp [splitSentences_nil]
    | c :: rest =>
      simp only [List.length_cons] at ht
      rw [List.cons_append, splitSentences_cons]
      by_cases hc : isSentTerm c = true
      · rw [if_pos hc]
        rw [List.dropWhile_append]
        by_cases hre : (rest.dropWhile isSentTerm).isEmpty = true
        · rw [if_pos hre]
          have hall : ∀ a ∈ rest, isSentTerm a = true :=
            List.dropWhile_eq_nil_iff.mp (List.isEmpty_iff.mp hre)
          have hdrop : List.dropWhile isSentTerm [d] = [] := by
            rw [List.dropWhile_cons, hd]
            simp
          rw [hdrop]
          have hlast : (c :: rest).getLast?.elim false isSentTerm = true := by
            match hx : (c :: rest).getLast? with
            | none => simp at hx
            | some a =>
              have ham := mem_of_getLast?_eq _ _ hx
              rcases List.mem_cons.mp ham with h1 | h1
              · -- a = c; this happens only when rest = [], and then a = c is a term? ;
                -- in general the last of (c :: rest) is c only if rest = []
                match rest with
                | [] =>
                  rw [List.getLast?_singleton] at hx
                  rw [Option.elim_some, ← Option.some.inj hx]
                  exact hc
                | e :: rest' =>
                  rw [List.getLast?_cons_cons] at hx
                  have := mem_of_getLast?_eq _ _ hx
                  rw [Option.elim_some]
                  exact hall a this
              · rw [Option.elim_some]
                exact hall a h1
          rw [hlast]
          simp only [if_true]
          rw [splitSentences_cons, if_pos hc]
          rw [List.dropWhile_eq_nil_iff.mpr hall]
        · rw [if_neg hre]
          have hne : rest.dropWhile isSentTerm ≠ [] := by
            intro hcon
            rw [hcon] at hre
            simp at hre
          have hfuel : (rest.dropWhile isSentTerm).length ≤ n := by
            have hsub2 : (rest.dropWhile isSentTerm).Sublist rest := List.dropWhile_sublist _
            have := List.Sublist.length_le hsub2
            omega
          rw [ih _ hfuel]
          have hrestne : rest ≠ [] := by
            intro hcon
            rw [hcon] at hne
            simp at hne
          have hlastscons : (c :: rest).getLast? = rest.getLast? := by
            match rest, hrestne with
            | e :: rest', _ => exact List.getLast?_cons_cons
          have hlastdrop : (rest.dropWhile isSentTerm).getLast? = rest.getLast? :=
            getLast?_dropWhile isSentTerm rest hne
          rw [hlastdrop, hlastscons]
          rw [splitSentences_cons, if_pos hc]
          split
          · rfl
          · rfl
      · rw [if_neg hc]
        have hfuel : rest.length ≤ n := by omega
        rw [ih rest hfuel]
        match rest with
        | [] =>
          simp only [List.getLast?_singleton, Option.elim_some, hc]
          rw [splitSentences_nil]
          simp only [List.nil_append, Bool.false_eq_true, if_false]
          rw [splitSentences_cons, if_neg hc, splitSentences_nil]
          rfl
        | e :: rest' =>
          have hlast : (c :: e :: rest').getLast? = (e :: rest').getLast? :=
            List.getLast?_cons_cons
          obtain ⟨p, ps, hps⟩ : ∃ p ps, splitSentences (e :: rest') = p :: ps := by
            match hsp : splitSentences (e :: rest') with
            | [] => exact absurd hsp (splitSentences_ne_nil _)
            | p :: ps => exact ⟨p, ps, rfl⟩
          have hcons : splitSentences (c :: e :: rest') = (c :: p) :: ps := by
            rw [splitSentences_cons c (e :: rest'), if_neg hc, hps]
          by_cases helim : (e :: rest').getLast?.elim false isSentTerm = true
          · rw [hlast, if_pos helim, if_pos helim, hps, hcons]
          · rw [hlast, if_neg helim, if_neg helim, hps, hcons, List.cons_append,
              List.cons_append]

/-- Dropping a trailing terminator does not change the number of sentences
retained by the readability segmentation (the extra piece is empty). -/
theorem readabilitySentences_append_term (t : List Char) (d : Char)
    (hd : isSentTerm d = true) :
    (readabilitySentences (t ++ [d])).length = (readabilitySentences t).length := by
  unfold readabilitySentences
  rw [splitSentences_append_term d hd (t.length) t (Nat.le_refl _)]
  split
  · rfl
  · rw [List.filter_append]
    simp [pyStrip]

/-- C3 counterexample: the statistics report for `"The cat sat."` carries
`sentences = 2`, not 1 — `calculate_text_statistics` counts the raw
`re.split` pieces, including the empty piece after the trailing period. -/
theorem claim3_counterexample :
    (calculate_text_statistics "The cat sat.".data).map TextStatistics.sentences = some 2 ∧
    ¬ ∃ st : TextStatistics, calculate_text_statistics "The cat sat.".data = some st ∧
        st.words = 3 ∧ st.sentences = 1 := by
  refine ⟨by decide, ?_⟩
  rintro ⟨st, h, -, h1⟩
  have h2 : (calculate_text_statistics "The cat sat.".data).map TextStatistics.sentences
      = some 2 := by decide
  rw [h, Option.map_some'] at h2
  rw [h1] at h2
  exact absurd (Option.some.inj h2) (by decide)

/-- C3 (amended): the readability computation's segmentation keeps only
pieces that are non-empty after `strip`, and a trailing terminator adds no
sentence there; but the `sentences` field of the statistics report counts
the raw split pieces, so `"The cat sat."` reports `words = 3` and
`sentences = 2`. -/
theorem claim3_sentence_segmentation :
    ((calculate_text_statistics "The cat sat.".data).map
        (fun st => (st.words, st.sentences)) = some (3, 2)) ∧
    (∀ t p, p ∈ readabilitySentences t → pyStrip p ≠ []) ∧
    (∀ t : List Char, ∀ d : Char, isSentTerm d = true →
      (readabilitySentences (t ++ [d])).length = (readabilitySentences t).length) := by
  refine ⟨by decide, ?_, ?_⟩
  · intro t p hp
    have := (List.mem_filter.mp hp).2
    intro hcon
    rw [hcon] at this
    simp at this
  · intro t d hd
    exact readabilitySentences_append_term t d hd

/-- C3 witness: the single kept piece of `"The cat sat."` is non-empty after
`strip`, and appending a period to `"The cat"` leaves the readability
sentence count unchanged. -/
theorem claim3_witness :
    pyStrip "The cat sat".data ≠ [] ∧
    (readabilitySentences ("The cat".data ++ ['.'])).length =
      (readabilitySentences "The cat".data).length :=
  ⟨claim3_sentence_segmentation.2.1 (clean_text "The cat sat.".data) "The cat sat".data
      (by decide),
    claim3_sentence_segmentation.2.2 "The cat".data '.' (by decide)⟩

/-! ### Claim C6 — the Flesch Reading Ease clamp -/

/-- Round-half-even of a non-negative rational is non-negative. -/
theorem roundHalfEven_nonneg (q : ℚ) (h : 0 ≤ q) : 0 ≤ roundHalfEven q := by
  have hdef : roundHalfEven q =
      if q - (⌊q⌋ : ℚ) < 1 / 2 then ⌊q⌋
      else if 1 / 2 < q - (⌊q⌋ : ℚ) then ⌊q⌋ + 1
      else if Even ⌊q⌋ then ⌊q⌋ else ⌊q⌋ + 1 := rfl
  have hf : (0 : ℤ) ≤ ⌊q⌋ := Int.floor_nonneg.mpr h
  rw [hdef]
  split
  · exact hf
  · split
    · omega
    · split
      · exact hf
      · omega

/-- Round-half-even never exceeds an integer upper bound of its argument. -/
theorem roundHalfEven_le (q : ℚ) (m : ℤ) (h : q ≤ (m : ℚ)) : roundHalfEven q ≤ m := by
  have hdef : roundHalfEven q =
      if q - (⌊q⌋ : ℚ) < 1 / 2 then ⌊q⌋
      else if 1 / 2 < q - (⌊q⌋ : ℚ) then ⌊q⌋ + 1
      else if Even ⌊q⌋ then ⌊q⌋ else ⌊q⌋ + 1 := rfl
  have hfl : ⌊q⌋ ≤ m := by
    have := Int.floor_le_floor h
    rwa [Int.floor_intCast] at this
  rw [hdef]
  by_cases heq : ⌊q⌋ = m
  · have hr : q - (⌊q⌋ : ℚ) < 1 / 2 := by
      have hqm : q - (⌊q⌋ : ℚ) ≤ 0 := by
        rw [heq]
        linarith
      linarith
    rw [if_pos hr]
    exact hfl
  · have hlt : ⌊q⌋ + 1 ≤ m := by omega
    split
    · exact hfl
    · split
      · exact hlt
      · split
        · exact hfl
        · exact hlt

/-- Rounding to `n` decimals preserves non-negativity. -/
theorem pyRoundTo_nonneg (n : ℕ) (q : ℚ) (h : 0 ≤ q) : 0 ≤ pyRoundTo n q := by
  unfold pyRoundTo
  apply div_nonneg
  · exact_mod_cast roundHalfEven_nonneg _ (by positivity)
  · positivity

/-- Rounding to `n` decimals preserves an integer upper bound. -/
theorem pyRoundTo_le_int (n : ℕ) (q : ℚ) (m : ℤ) (h : q ≤ (m : ℚ)) :
    pyRoundTo n q ≤ (m : ℚ) := by
  unfold pyRoundTo
  rw [div_le_iff₀ (by positivity)]
  have harg : q * 10 ^ n ≤ ((m * 10 ^ n : ℤ) : ℚ) := by
    push_cast
    have hpow : (0 : ℚ) ≤ 10 ^ n := by positivity
    exact mul_le_mul_of_nonneg_right h hpow
  have := roundHalfEven_le (q * 10 ^ n) (m * 10 ^ n) harg
  calc ((roundHalfEven (q * 10 ^ n) : ℤ) : ℚ) ≤ ((m * 10 ^ n : ℤ) : ℚ) := by exact_mod_cast this
    _ = (m : ℚ) * 10 ^ n := by push_cast; ring

/-- C6: whenever a readability report is produced, its `flesch_reading_ease`
lies in the closed interval [0, 100]: the raw linear formula is clamped with
`max 0 (min 100 ·)` before the two-decimal rounding, and the rounding
preserves the bounds. -/
theorem claim6_flesch_bounded (s : List Char) (r : ReadabilityScores)
    (h : calculate_readability_score s = some r) :
    0 ≤ r.flesch_reading_ease ∧ r.flesch_reading_ease ≤ 100 := by
  unfold calculate_readability_score at h
  by_cases hs : s = []
  · rw [if_pos hs] at h
    exact Option.noConfusion h
  rw [if_neg hs] at h
  simp only [] at h
  split at h
  · exact Option.noConfusion h
  · have hrec := Option.some.inj h
    rw [← hrec]
    constructor
    · exact pyRoundTo_nonneg 2 _ (le_max_left 0 _)
    · have hle : max (0 : ℚ) (min 100 (206835 / 1000
          - 1015 / 1000 * ((((wordTokens (pyLower (clean_text s))).length : ℚ))
              / (((readabilitySentences (clean_text s)).length : ℚ)))
          - 846 / 10 * (((count_syllables (clean_text s) : ℚ))
              / (((wordTokens (pyLower (clean_text s))).length : ℚ))))) ≤ 100 :=
        max_le (by norm_num) (min_le_left _ _)
      have := pyRoundTo_le_int 2 _ 100 (by exact_mod_cast hle)
      exact_mod_cast this

/-- C6 witness: `"Hi"` produces a report, and its Flesch score is within
bounds. -/
theorem claim6_witness :
    ∃ r : ReadabilityScores, calculate_readability_score "Hi".data = some r ∧
      0 ≤ r.flesch_reading_ease ∧ r.flesch_reading_ease ≤ 100 :=
  ⟨_, rfl, claim6_flesch_bounded "Hi".data _ rfl⟩

/-! ### Claim C7 — degenerate inputs give the empty report, not a fault -/

/-- C7: the readability computation returns the empty report exactly when
there are no words or no sentences to analyze, and whenever a populated
report is returned both divisors were non-zero (so the divisions on lines
109–110 are reached only with non-zero denominators). -/
theorem claim7_empty_report_iff (s : List Char) :
    (calculate_readability_score s = none ↔
      readability_word_count s = 0 ∨ readability_sentence_count s = 0) ∧
    (∀ r : ReadabilityScores, calculate_readability_score s = some r →
      readability_word_count s ≠ 0 ∧ readability_sentence_count s ≠ 0) := by
  have hiff : calculate_readability_score s = none ↔
      readability_word_count s = 0 ∨ readability_sentence_count s = 0 := by
    unfold calculate_readability_score readability_word_count readability_sentence_count
    by_cases hs : s = []
    · subst hs
      rw [if_pos rfl]
      constructor
      · intro _
        left
        decide
      · intro _
        rfl
    · rw [if_neg hs]
      simp only []
      split
      · rename_i hcond
        constructor
        · intro _
          exact hcond.symm
        · intro _
          rfl
      · rename_i hcond
        constructor
        · intro hcon
          exact Option.noConfusion hcon
        · intro hor
          exact absurd hor.symm hcond
  refine ⟨hiff, ?_⟩
  intro r hr
  constructor
  · intro h0
    rw [hiff.mpr (Or.inl h0)] at hr
    exact Option.noConfusion hr
  · intro h0
    rw [hiff.mpr (Or.inr h0)] at hr
    exact Option.noConfusion hr

/-- C7 witness: `"Hi"` produces a populated report, so its divisors were
non-zero. -/
theorem claim7_witness :
    readability_word_count "Hi".data ≠ 0 ∧ readability_sentence_count "Hi".data ≠ 0 := by
  obtain ⟨r, hr⟩ : ∃ r, calculate_readability_score "Hi".data = some r := ⟨_, rfl⟩
  exact (claim7_empty_report_iff "Hi".data).2 r hr

/-! ### Claims C8 and C9 — keyword extraction and sentiment sets -/

/-- Membership through the Counter-key insertion fold. -/
theorem mem_insertionOrder_aux (l : List (List Char)) :
    ∀ acc (a : List Char),
      (a ∈ l.foldl (fun acc w => if w ∈ acc then acc else acc ++ [w]) acc ↔
        a ∈ acc ∨ a ∈ l) := by
  induction l with
  | nil => intro acc a; simp
  | cons w l ih =>
    intro acc a
    rw [List.foldl_cons]
    by_cases hw : w ∈ acc
    · rw [if_pos hw, ih]
      constructor
      · rintro (h | h)
        · exact Or.inl h
        · exact Or.inr (List.mem_cons_of_mem _ h)
      · rintro (h | h)
        · exact Or.inl h
        · rcases List.mem_cons.mp h with h | h
          · exact Or.inl (h ▸ hw)
          · exact Or.inr h
    · rw [if_neg hw, ih]
      simp only [List.mem_append, List.mem_cons, List.mem_singleton,
        List.not_mem_nil, or_false]
      tauto

/-- `insertionOrder` preserves membership. -/
theorem mem_insertionOrder (l : List (List Char)) (a : List Char) :
    a ∈ insertionOrder l ↔ a ∈ l := by
  unfold insertionOrder
  rw [mem_insertionOrder_aux]
  simp

/-- The Counter-key insertion fold preserves `Nodup`. -/
theorem nodup_insertionOrder_aux (l : List (List Char)) :
    ∀ acc : List (List Char), acc.Nodup →
      (l.foldl (fun acc w => if w ∈ acc then acc else acc ++ [w]) acc).Nodup := by
  induction l with
  | nil => intro acc h; exact h
  | cons w l ih =>
    intro acc h
    rw [List.foldl_cons]
    by_cases hw : w ∈ acc
    · rw [if_pos hw]
      exact ih acc h
    · rw [if_neg hw]
      refine ih _ ?_
      rw [List.nodup_append]
      refine ⟨h, List.nodup_singleton w, ?_⟩
      intro a ha hb
      rw [List.mem_singleton] at hb
      exact hw (hb ▸ ha)

/-- `insertionOrder` output is duplicate-free. -/
theorem nodup_insertionOrder (l : List (List Char)) : (insertionOrder l).Nodup :=
  nodup_insertionOrder_aux l [] List.nodup_nil

/-- Membership through the stable count-descending insertion. -/
theorem mem_insertDescBy (cnt : List Char → Nat) (x a : List Char) :
    ∀ l, a ∈ insertDescBy cnt x l ↔ a = x ∨ a ∈ l := by
  intro l
  induction l with
  | nil => simp [insertDescBy]
  | cons y ys ih =>
    rw [insertDescBy]
    split
    · rw [List.mem_cons, ih, List.mem_cons]
      tauto
    · simp only [List.mem_cons]

/-- Membership through the `most_common` sorting fold. -/
theorem mem_mostCommonOrder_aux (cnt : List Char → Nat) (l : List (List Char)) :
    ∀ acc (a : List Char),
      (a ∈ l.foldl (fun acc x => insertDescBy cnt x acc) acc ↔ a ∈ acc ∨ a ∈ l) := by
  induction l with
  | nil => intro acc a; simp
  | cons x l ih =>
    intro acc a
    rw [List.foldl_cons, ih, mem_insertDescBy]
    simp only [List.mem_cons]
    tauto

/-- Every keyword returned by `extract_keywords` survives the stop-word and
length filters. -/
theorem mem_extract_keywords (s : List Char) (n : Nat) (w : List Char)
    (h : w ∈ extract_keywords s n) : w ∉ stop_words ∧ 2 < w.length := by
  unfold extract_keywords at h
  by_cases hs : s = []
  · rw [if_pos hs] at h
    simp at h
  rw [if_neg hs] at h
  simp only [] at h
  have h1 := List.take_subset _ _ h
  unfold mostCommonOrder at h1
  rw [mem_mostCommonOrder_aux] at h1
  rcases h1 with h1 | h1
  · simp at h1
  · rw [mem_insertionOrder] at h1
    unfold keywordCandidates at h1
    rw [List.mem_filter] at h1
    have h2 := h1.2
    rw [Bool.and_eq_true, decide_eq_true_iff, decide_eq_true_iff] at h2
    exact h2

/-- `insertDescBy` produces a permutation of consing the element. -/
theorem perm_insertDescBy (cnt : List Char → Nat) (x : List Char) :
    ∀ l, List.Perm (insertDescBy cnt x l) (x :: l) := by
  intro l
  induction l with
  | nil => rw [insertDescBy]
  | cons y ys ih =>
    rw [insertDescBy]
    split
    · exact (List.Perm.cons y ih).trans (List.Perm.swap x y ys)
    · exact List.Perm.refl _

/-- The `most_common` fold permutes its input (no key is lost or invented). -/
theorem perm_mostCommonOrder_aux (cnt : List Char → Nat) :
    ∀ l acc : List (List Char),
      List.Perm (l.foldl (fun acc x => insertDescBy cnt x acc) acc) (acc ++ l) := by
  intro l
  induction l with
  | nil => intro acc; simp
  | cons x l ih =>
    intro acc
    rw [List.foldl_cons]
    refine (ih _).trans ?_
    refine (((perm_insertDescBy cnt x acc).append_right l).trans ?_)
    rw [List.cons_append]
    exact List.perm_middle.symm

/-- `mostCommonOrder` is a permutation of its input. -/
theorem perm_mostCommonOrder (cnt : List Char → Nat) (l : List (List Char)) :
    List.Perm (mostCommonOrder cnt l) l := by
  unfold mostCommonOrder
  have := perm_mostCommonOrder_aux cnt l []
  rwa [List.nil_append] at this

/-- Inserting into a count-descending list keeps it count-descending. -/
theorem sorted_insertDescBy (cnt : List Char → Nat) (x : List Char) :
    ∀ l, l.Pairwise (fun a b => cnt b ≤ cnt a) →
      (insertDescBy cnt x l).Pairwise (fun a b => cnt b ≤ cnt a) := by
  intro l
  induction l with
  | nil =>
    intro _
    rw [insertDescBy]
    exact List.pairwise_singleton _ x
  | cons y ys ih =>
    intro h
    rw [List.pairwise_cons] at h
    rw [insertDescBy]
    split
    · rename_i hxy
      rw [List.pairwise_cons]
      constructor
      · intro b hb
        rw [mem_insertDescBy] at hb
        rcases hb with hb | hb
        · exact hb ▸ hxy
        · exact h.1 b hb
      · exact ih h.2
    · rename_i hxy
      rw [Nat.not_le] at hxy
      rw [List.pairwise_cons]
      constructor
      · intro b hb
        rcases List.mem_cons.mp hb with hb | hb
        · exact hb ▸ Nat.le_of_lt hxy
        · exact Nat.le_trans (h.1 b hb) (Nat.le_of_lt hxy)
      · rw [List.pairwise_cons]
        exact h
    
/-- The `most_common` fold yields a count-descending list. -/
theorem sorted_mostCommonOrder_aux (cnt : List Char → Nat) :
    ∀ l acc : List (List Char), acc.Pairwise (fun a b => cnt b ≤ cnt a) →
      (l.foldl (fun acc x => insertDescBy cnt x acc) acc).Pairwise
        (fun a b => cnt b ≤ cnt a) := by
  intro l
  induction l with
  | nil => intro acc h; exact h
  | cons x l ih =>
    intro acc h
    rw [List.foldl_cons]
    exact ih _ (sorted_insertDescBy cnt x acc h)

/-- `mostCommonOrder` output is count-descending. -/
theorem sorted_mostCommonOrder (cnt : List Char → Nat) (l : List (List Char)) :
    (mostCommonOrder cnt l).Pairwise (fun a b => cnt b ≤ cnt a) :=
  sorted_mostCommonOrder_aux cnt l [] List.Pairwise.nil

/-- C8: keyword extraction lowercases the text, drops stop words and tokens
shorter than 3 characters, and returns the most frequent remaining tokens
up to `max_keywords` (the pre-truncation list is a permutation of the
distinct candidate tokens, sorted by non-increasing count, with equal counts
kept in first-occurrence order by the stable insertion); in particular
`extract_keywords("the the the dog ran dog", 2) = ["dog", "ran"]`. -/
theorem claim8_keyword_extraction :
    extract_keywords "the the the dog ran dog".data 2 = ["dog".data, "ran".data] ∧
    (∀ s : List Char, ∀ n : Nat, ∀ w : List Char, w ∈ extract_keywords s n →
      w ∉ stop_words ∧ 2 < w.length) ∧
    (∀ s : List Char, ∀ n : Nat, (extract_keywords s n).Pairwise
      (fun a b => (keywordCandidates s).count b ≤ (keywordCandidates s).count a)) ∧
    (∀ s : List Char,
      List.Perm
        (mostCommonOrder (fun w => (keywordCandidates s).count w)
          (insertionOrder (keywordCandidates s)))
        (insertionOrder (keywordCandidates s))) := by
  refine ⟨by decide, fun s n w h => mem_extract_keywords s n w h, ?_, ?_⟩
  · intro s n
    unfold extract_keywords
    by_cases hs : s = []
    · rw [if_pos hs]
      exact List.Pairwise.nil
    · rw [if_neg hs]
      simp only []
      exact List.Pairwise.sublist (List.take_sublist n _) (sorted_mostCommonOrder _ _)
  · intro s
    exact perm_mostCommonOrder _ _

/-- C8 witness: the returned keyword `"dog"` is a non-stop-word of length
greater than 2. -/
theorem claim8_witness : "dog".data ∉ stop_words ∧ 2 < "dog".data.length :=
  claim8_keyword_extraction.2.1 "the the the dog ran dog".data 2 "dog".data (by decide)

/-- C9: sentiment extraction has set semantics — each matching lexicon word
appears exactly once in the output (multiplicity at most 1, and membership
iff the word is in the lexicon and occurs in the text), and
`"good good great"` yields a positive set of size 2 containing `"good"` and
`"great"`. -/
theorem claim9_sentiment_set_semantics :
    ((extract_sentiment_words "good good great".data).positive.length = 2 ∧
      "good".data ∈ (extract_sentiment_words "good good great".data).positive ∧
      "great".data ∈ (extract_sentiment_words "good good great".data).positive ∧
      (extract_sentiment_words "good good great".data).positive.count "good".data = 1) ∧
    (∀ s : List Char, ((extract_sentiment_words s).positive.Nodup ∧
        (extract_sentiment_words s).negative.Nodup) ∧
      ∀ w : List Char,
        (w ∈ (extract_sentiment_words s).positive ↔
          w ∈ positive_words ∧ w ∈ wordTokens (pyLower s)) ∧
        (w ∈ (extract_sentiment_words s).negative ↔
          w ∈ negative_words ∧ w ∈ wordTokens (pyLower s))) := by
  refine ⟨⟨by decide, by decide, by decide, by decide⟩, ?_⟩
  intro s
  unfold extract_sentiment_words
  simp only []
  refine ⟨⟨nodup_insertionOrder _, nodup_insertionOrder _⟩, ?_⟩
  intro w
  constructor
  · rw [mem_insertionOrder, List.mem_filter, decide_eq_true_iff]
    tauto
  · rw [mem_insertionOrder, List.mem_filter, decide_eq_true_iff]
    tauto

/-! ### Claim C10 — the paragraph count is capped at one -/

/-- Characters emitted by the whitespace collapse are either the ASCII space
or non-whitespace characters of the input. -/
theorem mem_collapseAux (a : Char) :
    ∀ (l : List Char) (b : Bool), a ∈ collapseAux b l →
      a = ' ' ∨ (a ∈ l ∧ pyIsSpace a = false) := by
  intro l
  induction l with
  | nil => intro b h; rw [collapseAux] at h; exact absurd h (List.not_mem_nil a)
  | cons c rest ih =>
    intro b h
    rw [collapseAux] at h
    by_cases hsp : pyIsSpace c = true
    · rw [if_pos hsp] at h
      by_cases hb : b = true
      · rw [if_pos hb] at h
        rcases ih true h with h1 | h1
        · exact Or.inl h1
        · exact Or.inr ⟨List.mem_cons_of_mem c h1.1, h1.2⟩
      · rw [if_neg hb] at h
        rcases List.mem_cons.mp h with h1 | h1
        · exact Or.inl h1
        · rcases ih true h1 with h2 | h2
          · exact Or.inl h2
          · exact Or.inr ⟨List.mem_cons_of_mem c h2.1, h2.2⟩
    · rw [if_neg hsp] at h
      rcases List.mem_cons.mp h with h1 | h1
      · refine Or.inr ⟨h1 ▸ List.mem_cons_self c rest, ?_⟩
        rw [h1]
        exact Bool.not_eq_true _ ▸ (Bool.eq_false_iff.mpr hsp)
      · rcases ih false h1 with h2 | h2
        · exact Or.inl h2
        · exact Or.inr ⟨List.mem_cons_of_mem c h2.1, h2.2⟩

/-- No newline survives `clean_text`: the whitespace collapse replaces every
whitespace character with the ASCII space, and no later stage introduces
one. -/
theorem newline_not_mem_clean_text (s : List Char) : '\n' ∉ clean_text s := by
  intro hmem
  unfold clean_text at hmem
  by_cases hs : s = []
  · rw [if_pos hs] at hmem
    exact absurd hmem (List.not_mem_nil _)
  rw [if_neg hs] at hmem
  simp only [] at hmem
  rcases mem_pyReplace _ _ _ _ hmem with h | h
  · exact absurd h (by decide)
  rcases mem_pyReplace _ _ _ _ h with h | h
  · exact absurd h (by decide)
  rcases mem_pyReplace _ _ _ _ h with h | h
  · exact absurd h (by decide)
  rcases mem_pyReplace _ _ _ _ h with h | h
  · exact absurd h (by decide)
  rcases mem_pyReplace _ _ _ _ h with h | h
  · exact absurd h (by decide)
  have h2 := (List.mem_filter.mp h).1
  rcases mem_collapseAux _ _ _ h2 with h3 | h3
  · exact absurd h3 (by decide)
  · exact absurd h3.2 (by decide)

/-- Splitting on `"\n\n"` is trivial for a string without newlines. -/
theorem pySplitSep_eq_single (t : List Char) (h : '\n' ∉ t) :
    pySplitSep ['\n', '\n'] t = [t] := by
  induction t with
  | nil => rw [pySplitSep_nil]
  | cons c rest ih =>
    rw [pySplitSep_cons]
    have hc : ('\n' == c) = false := by
      by_contra hcc
      rw [Bool.not_eq_false, beq_iff_eq] at hcc
      subst hcc
      exact h (List.mem_cons_self _ _)
    have hpre : (['\n', '\n'].isPrefixOf (c :: rest)) = false := by
      simp only [List.isPrefixOf, Bool.and_eq_false_iff]
      left
      exact hc
    rw [if_neg (by simp [hpre])]
    rw [ih (fun hm => h (List.mem_cons_of_mem c hm))]

/-- C10 counterexample: for the input `"– –"` the cleaned text is the single
space `" "` — non-empty — yet the reported paragraph count is 0, because the
blank-line split pieces are also stripped before being counted.  This
refutes the parenthetical "1 whenever the cleaned text is non-empty". -/
theorem claim10_counterexample :
    (calculate_text_statistics "– –".data).map TextStatistics.paragraphs = some 0 ∧
    clean_text "– –".data = [' '] ∧
    clean_text "– –".data ≠ [] :=
  ⟨by decide, by decide, by decide⟩

/-- C10 (amended): the paragraph count of a statistics report is at most 1 —
the normalizer collapses newline runs to single spaces, so the blank-line
split is trivial — and it is 1 exactly when the cleaned text is non-empty
after stripping (a cleaned text consisting only of whitespace gives 0). -/
theorem claim10_paragraphs (s : List Char) (st : TextStatistics)
    (h : calculate_text_statistics s = some st) :
    st.paragraphs ≤ 1 ∧ (st.paragraphs = 1 ↔ pyStrip (clean_text s) ≠ []) := by
  unfold calculate_text_statistics at h
  by_cases hs : s = []
  · rw [if_pos hs] at h
    exact Option.noConfusion h
  rw [if_neg hs] at h
  simp only [] at h
  have hrec := Option.some.inj h
  have hpar : st.paragraphs =
      ((pySplitSep ['\n', '\n'] (clean_text s)).filter
        (fun p => !(pyStrip p).isEmpty)).length := by
    rw [← hrec]
  rw [hpar, pySplitSep_eq_single _ (newline_not_mem_clean_text s), List.filter_cons]
  by_cases hstrip : (pyStrip (clean_text s)).isEmpty = true
  · rw [hstrip]
    simp only [Bool.not_true, Bool.false_eq_true, if_false, List.filter_nil,
      List.length_nil]
    have hempty : pyStrip (clean_text s) = [] := List.isEmpty_iff.mp hstrip
    constructor
    · omega
    · constructor
      · intro hcon
        exact absurd hcon (by omega)
      · intro hcon
        exact absurd hempty hcon
  · rw [Bool.not_eq_true] at hstrip
    rw [hstrip]
    simp only [Bool.not_false, if_true, List.filter_nil, List.length_cons,
      List.length_nil]
    constructor
    · omega
    · constructor
      · intro _
        intro hcon
        rw [hcon] at hstrip
        simp at hstrip
      · intro _
        trivial

/-- C10 witness: `"Hi"` produces a report whose paragraph count is bounded
by 1 and is 1 because the cleaned text has non-space content. -/
theorem claim10_witness :
    ∃ st : TextStatistics, calculate_text_statistics "Hi".data = some st ∧
      st.paragraphs ≤ 1 ∧ (st.paragraphs = 1 ↔ pyStrip (clean_text "Hi".data) ≠ []) :=
  ⟨_, rfl, claim10_paragraphs "Hi".data _ rfl⟩

end TextUtils
